import Mathlib

/-!
Verification of the streaming-response parser/aggregator of the
snowflake-cortex-agents-with-slack repository.

The development shallow-embeds the two stream consumers of the repository:

* `parse_sse_response` / `_process_sse_line` / `_parse_delta_content` and the
  derived views (`sql_query`, `final_text`, `sql_queries`, `citations`,
  `extract_summary`) from `cortex_response_parser.py`;
* the streaming loop of `_retrieve_response`, `_handle_error` and
  `_smart_truncate` from `cortex_chat.py` (the identical `smart_truncate` also
  lives in `app.py`).

Python strings are modelled as Lean `String`; the Python-specific primitives
(`str.strip`, `str.replace`, `str.split`, slicing with a possibly negative
bound, and `re.search` for the one fixed pattern the code uses) are defined
below over the character list so that everything is executable by the kernel.

SSE lines are modelled after the JSON-parse outcome the code branches on: an
`event: ` line carrying its (already trimmed) name, a `data: ` line whose
payload is the `[DONE]` sentinel, a JSON parse failure, or a JSON object with
the fields the code reads.  Payloads that parse to JSON arrays (the legacy
trace format) are outside the model: the chat loop skips them explicitly and
no claim concerns them.  Slack/IO side effects (prints, `slack_say`,
`chat_update`) carry no aggregation state and are omitted.
-/

namespace SnowCortex

/-! ## Python string primitives -/

/-- Concatenation of a list of strings (Python `''.join`). -/
def sConcat : List String → String
  | [] => ""
  | s :: rest => s ++ sConcat rest

/-- Python `sep.join(xs)` for a possibly non-trivial separator. -/
def sJoinSep (sep : String) : List String → String
  | [] => ""
  | [s] => s
  | s :: rest => s ++ sep ++ sJoinSep sep rest

/-- Python `s.strip()`: remove leading and trailing whitespace. -/
def pyStrip (s : String) : String :=
  ⟨((s.data.dropWhile Char.isWhitespace).reverse.dropWhile Char.isWhitespace).reverse⟩

/-- Does `pat` occur at the head of `l`? -/
def startsWithChars : List Char → List Char → Bool
  | [], _ => true
  | _ :: _, [] => false
  | p :: ps, c :: cs => p == c && startsWithChars ps cs

/-- Split `l` at every non-overlapping occurrence of the non-empty separator
`sep`, keeping empty pieces — the semantics of Python `s.split(sep)`.
`fuel` bounds the recursion; callers pass the length of `l`. -/
def splitChars (sep : List Char) : Nat → List Char → List Char → List (List Char)
  | _, acc, [] => [acc.reverse]
  | 0, acc, l => [acc.reverse ++ l]
  | fuel + 1, acc, c :: rest =>
    if startsWithChars sep (c :: rest) then
      acc.reverse :: splitChars sep fuel [] ((c :: rest).drop sep.length)
    else
      splitChars sep fuel (c :: acc) rest

/-- Python `s.split(sep)` for a non-empty separator. -/
def pySplitOn (s sep : String) : List String :=
  (splitChars sep.data s.data.length [] s.data).map (fun l => ⟨l⟩)

/-- Python `s.replace(pat, rep)` = `rep.join(s.split(pat))`. -/
def pyReplace (s pat rep : String) : String :=
  sJoinSep rep (pySplitOn s pat)

/-- Split at every whitespace character, keeping empty pieces. -/
def splitWsChars : List Char → List Char → List (List Char)
  | acc, [] => [acc.reverse]
  | acc, c :: rest =>
    if c.isWhitespace then acc.reverse :: splitWsChars [] rest
    else splitWsChars (c :: acc) rest

/-- Python `s.split()` (no argument): split on whitespace, dropping empties. -/
def pySplitWs (s : String) : List String :=
  ((splitWsChars [] s.data).map (fun l => (⟨l⟩ : String))).filter (· ≠ "")

/-- Python `s[:m]` where `m` may be negative (counts from the end, clipped). -/
def pySliceTo (s : String) (m : Int) : String :=
  if 0 ≤ m then ⟨s.data.take m.toNat⟩ else ⟨s.data.take (s.length - m.natAbs)⟩

/-- `re.search(r'<thinking>(.*?)</thinking>', s, re.DOTALL)`, returning group 1:
the text between the first `<thinking>` and the nearest `</thinking>` after
it, `none` when the pattern does not match. -/
def tagInner (s : String) : Option String :=
  match pySplitOn s "<thinking>" with
  | [] => none
  | [_] => none
  | _ :: rest =>
    match pySplitOn (sJoinSep "<thinking>" rest) "</thinking>" with
    | [] => none
    | [_] => none
    | inner :: _ => some inner

/-- `s` carries no occurrence of either thinking tag, i.e. it is a raw
streaming fragment: splitting on either tag returns the string untouched. -/
def rawFragment (s : String) : Prop :=
  pySplitOn s "<thinking>" = [s] ∧ pySplitOn s "</thinking>" = [s]

instance (s : String) : Decidable (rawFragment s) := by
  unfold rawFragment; infer_instance

/-! ## Data model (`cortex_response_parser.py`) -/

/-- One entry of a `searchResults` array. Only the three keys the citation
builder reads are modelled. -/
structure SearchResult where
  doc_title : Option String
  doc_id : Option String
  text : Option String
  deriving DecidableEq

/-- The `json` field of a tool-result content blob.  Only the keys read by the
claims (`sql`, `searchResults`) are modelled; the five verification keys are
not referenced by any claim. -/
structure BlobJson where
  sql : Option String
  searchResults : Option (List SearchResult)
  deriving DecidableEq

/-- One element of a tool result's `content` list: either a dict (with or
without a `json` key) or a non-dict item. -/
inductive Blob
  | dict (json : Option BlobJson)
  | nonDict
  deriving DecidableEq

/-- The `tool_use` payload.  The code reads only `name`
(`tool_data.get('name', 'unknown')`; an absent name is modelled as the
string the default produces).  `id`, `type` and `arguments` are stored but
never read by any claim. -/
structure ToolUseData where
  name : String
  deriving DecidableEq

/-- A tool result: `tool_use_id` plus content blobs. -/
structure ToolResultData where
  tool_use_id : String
  content : List Blob
  deriving DecidableEq

/-- `ToolResult.sql_query`: scan the content blobs, return the `sql` value of
the first dict blob whose `json` carries a `sql` key. -/
def firstSql : List Blob → Option String
  | [] => none
  | .dict (some j) :: rest =>
    match j.sql with
    | some s => some s
    | none => firstSql rest
  | _ :: rest => firstSql rest

def ToolResultData.sql_query (tr : ToolResultData) : Option String :=
  firstSql tr.content

/-- `ToolResult.search_results`: concatenate every `searchResults` array found
in the content blobs. -/
def ToolResultData.search_results (tr : ToolResultData) : List SearchResult :=
  tr.content.flatMap fun b =>
    match b with
    | .dict (some j) => j.searchResults.getD []
    | _ => []

/-- One item of a `ParsedMessage.content` list, tagged by its `type` field. -/
inductive ContentItem
  | text (s : String)
  | thinking (s : String)
  | tool_use (tu : ToolUseData)
  | tool_results (tr : ToolResultData)
  | tool_result (tr : ToolResultData)
  deriving DecidableEq

structure ParsedMessage where
  role : String
  content : List ContentItem
  deriving DecidableEq

/-- `ParsedMessage.text_content`: join the `text` of every `text`-typed item. -/
def ParsedMessage.text_content (m : ParsedMessage) : String :=
  sConcat (m.content.filterMap fun it =>
    match it with
    | .text s => some s
    | _ => none)

/-- `ParsedMessage.tool_results`: both the old (`tool_results`) and new
(`tool_result`) item types yield a tool result. -/
def ParsedMessage.tool_results (m : ParsedMessage) : List ToolResultData :=
  m.content.filterMap fun it =>
    match it with
    | .tool_results tr => some tr
    | .tool_result tr => some tr
    | _ => none

/-- `CortexResponse`.  `suggestions` and `request_id` are never touched by
`parse_sse_response` and are not referenced by any claim, so they are
omitted. -/
structure CortexResponse where
  messages : List ParsedMessage
  status_messages : List String
  deriving DecidableEq

/-- Reverse scan helper for `final_text`: first assistant-role message wins. -/
def lastAssistantText : List ParsedMessage → String
  | [] => ""
  | m :: rest => if m.role = "assistant" then m.text_content else lastAssistantText rest

/-- `CortexResponse.final_text`: text of the last assistant-role message. -/
def CortexResponse.final_text (r : CortexResponse) : String :=
  lastAssistantText r.messages.reverse

/-- `CortexResponse.sql_queries`: for every message, for every tool result,
append `sql_query` when it is truthy (Python `if sql:` drops both `None` and
the empty string). -/
def CortexResponse.sql_queries (r : CortexResponse) : List String :=
  r.messages.flatMap fun m =>
    m.tool_results.filterMap fun tr =>
      match tr.sql_query with
      | some s => if s ≠ "" then some s else none
      | none => none

def CortexResponse.search_results (r : CortexResponse) : List SearchResult :=
  r.messages.flatMap fun m => m.tool_results.flatMap (·.search_results)

/-- Citation formatting: requires `doc_title` and `text`, appends the source
marker when `doc_id` is present. -/
def citationOf (sr : SearchResult) : Option String :=
  match sr.doc_title, sr.text with
  | some ti, some tx =>
    some (ti ++ ": " ++ tx ++
      (match sr.doc_id with
       | some d => " [Source: " ++ d ++ "]"
       | none => ""))
  | _, _ => none

def CortexResponse.citations (r : CortexResponse) : List String :=
  r.search_results.filterMap citationOf

/-- The claim-relevant fields of `extract_summary`'s result.  The remaining
keys (`suggestions`, counts, verification flags, `planning_updates`) are not
referenced by any claim and are omitted. -/
structure Summary where
  text : String
  sql_queries : List String
  citations : List String
  deriving DecidableEq

def extract_summary (r : CortexResponse) : Summary :=
  { text := r.final_text
    sql_queries := r.sql_queries
    citations := r.citations }

/-! ## SSE line model -/

/-- One item of a `delta.content` array, tagged by its `type`. -/
inductive DeltaItem
  | text (s : String)
  | tool_use (tu : ToolUseData)
  | tool_results (tr : ToolResultData)
  | tool_result (tr : ToolResultData)
  | other
  deriving DecidableEq

/-- The fields of a decoded JSON-object payload that the two consumers read.
`delta` models `payload['delta']['content']` (`none` when `delta` is absent
or has no `content` key);  `content` is the top-level `content` field. -/
structure JsonObj where
  text : Option String
  message : Option String
  content_index : Option Nat
  object : Option String
  delta : Option (List DeltaItem)
  role : Option String
  content : Option (List Blob)
  tool_use_id : Option String
  status : Option String
  status_message : Option String
  deriving DecidableEq

def emptyObj : JsonObj :=
  ⟨none, none, none, none, none, none, none, none, none, none⟩

/-- The payload of a `data: ` line after stripping the prefix, classified by
its JSON parse outcome. -/
inductive DataContent
  | done
  | malformed
  | obj (o : JsonObj)
  deriving DecidableEq

/-- One SSE line.  `event` carries the already-trimmed event name; `blank`
stands for every line with neither prefix (ignored by both consumers). -/
inductive SSELine
  | event (name : String)
  | data (d : DataContent)
  | blank
  deriving DecidableEq

/-! ## The SSE parser (`parse_sse_response`) -/

/-- Loop state of `parse_sse_response` before the final message assembly. -/
structure ParserState where
  status_messages : List String
  acc_text : String
  acc_tool_use : List ToolUseData
  acc_tool_results : List ToolResultData
  accumulated_thinking : List String
  current_event : Option String
  deriving DecidableEq

def parserInit : ParserState := ⟨[], "", [], [], [], none⟩

/-- Result record of `_parse_delta_content`. -/
structure DeltaParsed where
  text : String
  tool_use : List ToolUseData
  tool_results : List ToolResultData
  deriving DecidableEq

/-- One step of `_parse_delta_content`'s loop. -/
def pdcStep (r : DeltaParsed) (entry : DeltaItem) : DeltaParsed :=
  match entry with
  | .text s => { r with text := r.text ++ s }
  | .tool_use tu => { r with tool_use := r.tool_use ++ [tu] }
  | .tool_results tr => { r with tool_results := r.tool_results ++ [tr] }
  | _ => r

def parseDeltaContent (content : List DeltaItem) : DeltaParsed :=
  content.foldl pdcStep ⟨"", [], []⟩

/-- Classification performed by `_process_sse_line` on a decoded object. -/
inductive ProcessedLine
  | final_message
  | message (c : DeltaParsed)
  | other
  deriving DecidableEq

def processObj (o : JsonObj) : ProcessedLine :=
  if o.content.isSome ∧ o.role = some "assistant" then .final_message
  else if o.object = some "message.delta" then
    match o.delta with
    | some items => .message (parseDeltaContent items)
    | none => .other
  else .other

/-- The event names handled by the explicit-event `try` block, which the
legacy processing therefore skips. -/
def handledEvents : List (Option String) :=
  [some "response.text.delta", some "response.text", some "response.thinking.delta",
   some "response.thinking", some "response.status"]

/-- The explicit-event dispatch of `parse_sse_response`'s `try` block. -/
def parserHandleEvent (st : ParserState) (o : JsonObj) : ParserState :=
  if st.current_event = some "response.thinking.delta" ∨
     st.current_event = some "response.thinking" then
    match o.text with
    | some t =>
      match tagInner t with
      | some inner =>
        let clean := pyStrip inner
        if clean ≠ "" then
          { st with accumulated_thinking := st.accumulated_thinking ++ [clean] }
        else st
      | none => st
    | none => st
  else if st.current_event = some "response.status" then
    match o.message with
    | some m => { st with status_messages := st.status_messages ++ [m] }
    | none => st
  else if st.current_event = some "response.text.delta" then
    match o.text with
    | some t => { st with acc_text := st.acc_text ++ t }
    | none => st
  else if st.current_event = some "response.text" then st
  else if st.current_event = some "response.tool_result" then
    match o.content, o.tool_use_id with
    | some c, some tid =>
      { st with acc_tool_results := st.acc_tool_results ++ [⟨tid, c⟩] }
    | _, _ => st
  else st

/-- The legacy (`_process_sse_line`-based) processing, gated on the current
event not being one of the explicitly handled ones. -/
def parserLegacy (st : ParserState) (o : JsonObj) : ParserState :=
  if st.current_event ∈ handledEvents then st
  else
    match processObj o with
    | .message c =>
      { st with
          acc_text := st.acc_text ++ c.text
          acc_tool_use := st.acc_tool_use ++ c.tool_use
          acc_tool_results := st.acc_tool_results ++ c.tool_results }
    | _ => st

/-- One iteration of `parse_sse_response`'s loop for a non-`[DONE]` line.  A
malformed JSON payload raises `json.JSONDecodeError`, which is caught, and
`_process_sse_line` then returns an error record that changes nothing. -/
def parseStep (st : ParserState) (l : SSELine) : ParserState :=
  match l with
  | .event name => { st with current_event := some name }
  | .blank => st
  | .data .done => st
  | .data .malformed => st
  | .data (.obj o) => parserLegacy (parserHandleEvent st o) o

/-- The line loop: the `[DONE]` sentinel breaks out before any processing. -/
def runLines (st : ParserState) : List SSELine → ParserState
  | [] => st
  | l :: rest =>
    match l with
    | .data .done => st
    | _ => runLines (parseStep st l) rest

/-- Thinking pseudo-messages emitted first at finalize time, one per
non-blank accumulated thinking text. -/
def thinkingMessages (ts : List String) : List ParsedMessage :=
  (ts.filter fun t => pyStrip t ≠ "").map fun t => ⟨"assistant", [.thinking t]⟩

/-- The single aggregated assistant message (emitted last), present only when
some content accumulated. -/
def aggMessages (st : ParserState) : List ParsedMessage :=
  if st.acc_text ≠ "" ∨ st.acc_tool_use ≠ [] ∨ st.acc_tool_results ≠ [] then
    [⟨"assistant",
      (if st.acc_text ≠ "" then [ContentItem.text st.acc_text] else [])
        ++ st.acc_tool_use.map ContentItem.tool_use
        ++ st.acc_tool_results.map ContentItem.tool_results⟩]
  else []

def finalizeResponse (st : ParserState) : CortexResponse :=
  ⟨thinkingMessages st.accumulated_thinking ++ aggMessages st, st.status_messages⟩

def parse_sse_response (lines : List SSELine) : CortexResponse :=
  finalizeResponse (runLines parserInit lines)

/-! ## The chat streaming loop (`_retrieve_response` in `cortex_chat.py`) -/

/-- A timeline entry, as the dicts `{'type': ..., 'content': ...}` the chat
loop appends.  `content_index` is `none` for entries created without the key
(status entries, and the thinking entry of the tag-matched delta branch);
Python's `d.get('content_index')` then yields `None`, which compares unequal
to every integer. -/
inductive TimelineEntry
  | status (content : String)
  | thinking (content : String) (content_index : Option Nat)
  deriving DecidableEq

/-- Loop state of `_retrieve_response`'s streaming section. -/
structure ChatState where
  planning_updates : List String
  thinking_updates : List String
  timeline : List TimelineEntry
  tools_used : List String
  current_thinking : String
  current_event : Option String
  deriving DecidableEq

def chatInit : ChatState := ⟨[], [], [], [], "", none⟩

def isThinkingEntry : TimelineEntry → Bool
  | .thinking _ _ => true
  | _ => false

/-- `timeline[i]['type'] == 'thinking' and timeline[i].get('content_index') == ci`. -/
def isThinkingAt (i : Nat) : TimelineEntry → Bool
  | .thinking _ ci => ci == some i
  | _ => false

/-- `timeline[i]['content'] = c` (the matched entry is always thinking-typed). -/
def setContent (c : String) : TimelineEntry → TimelineEntry
  | .status _ => .status c
  | .thinking _ ci => .thinking c ci

/-- The reversed-range search-and-update loop: modify the LAST entry
satisfying `p` (if any) and leave everything else in place. -/
def updateLast (p : TimelineEntry → Bool) (fn : TimelineEntry → TimelineEntry) :
    List TimelineEntry → List TimelineEntry
  | [] => []
  | e :: rest =>
    if rest.any p then e :: updateLast p fn rest
    else if p e then fn e :: rest
    else e :: rest

/-- `while len(l) <= ci: l.append("")`. -/
def extendTo (l : List String) (ci : Nat) : List String :=
  l ++ List.replicate (ci + 1 - l.length) ""

/-- The `response.status` branch of the chat loop. -/
def chatStatus (st : ChatState) (o : JsonObj) : ChatState :=
  match o.message with
  | some m =>
    { st with
        planning_updates := st.planning_updates ++ [m]
        timeline := st.timeline ++ [.status m] }
  | none => st

/-- The `response.thinking.delta` branch: a tag-wrapped payload replaces the
last thinking update (or starts one, without a `content_index` key); a raw
fragment is appended verbatim to the stream slot `content_index` and the
timeline entry for that slot is created on first fragment, then kept equal to
the accumulated text stripped of surrounding whitespace. -/
def chatThinkingDelta (st : ChatState) (o : JsonObj) : ChatState :=
  match o.text with
  | none => st
  | some thinking_text =>
    match tagInner thinking_text with
    | some inner =>
      let clean := pyStrip inner
      if clean ≠ "" then
        if st.thinking_updates ≠ [] then
          { st with
              thinking_updates :=
                st.thinking_updates.set (st.thinking_updates.length - 1) clean
              timeline := updateLast isThinkingEntry (setContent (pyStrip clean)) st.timeline }
        else
          { st with
              thinking_updates := st.thinking_updates ++ [clean]
              timeline := st.timeline ++ [.thinking (pyStrip clean) none] }
      else st
    | none =>
      let clean_text := pyReplace (pyReplace thinking_text "<thinking>" "") "</thinking>" ""
      if clean_text ≠ "" then
        let ci := o.content_index.getD 0
        let tu := extendTo st.thinking_updates ci
        let tl :=
          if tu.getD ci "" = "" then
            st.timeline ++ [.thinking (pyStrip clean_text) (some ci)]
          else st.timeline
        let tu2 := tu.set ci (tu.getD ci "" ++ clean_text)
        let tl2 := updateLast (isThinkingAt ci) (setContent (pyStrip (tu2.getD ci ""))) tl
        { st with thinking_updates := tu2, timeline := tl2 }
      else st

/-- The `response.thinking` (complete) branch: requires a tag-wrapped payload
with non-blank inner text; overwrites slot `content_index` and updates the
existing timeline entry for that index in place, appending only when none
exists. -/
def chatThinkingDone (st : ChatState) (o : JsonObj) : ChatState :=
  match o.text with
  | none => st
  | some thinking_text =>
    match tagInner thinking_text with
    | none => st
    | some inner =>
      let clean := pyStrip inner
      if clean ≠ "" then
        let ci := o.content_index.getD 0
        let tu := (extendTo st.thinking_updates ci).set ci clean
        let tl :=
          if st.timeline.any (isThinkingAt ci) then
            updateLast (isThinkingAt ci) (setContent (pyStrip clean)) st.timeline
          else st.timeline ++ [.thinking (pyStrip clean) (some ci)]
        { st with thinking_updates := tu, timeline := tl }
      else st

/-- One item of the legacy `message.delta` content loop in the chat display
code: text feeds the debug preview only, a `tool_use` registers the tool once
(by name) and appends a `Using <name>` status, a `tool_result` is inspected
for debug logging only. -/
def chatDeltaItem (st : ChatState) (it : DeltaItem) : ChatState :=
  match it with
  | .text s =>
    if s ≠ "" then { st with current_thinking := st.current_thinking ++ s } else st
  | .tool_use tu =>
    if tu.name ∉ st.tools_used then
      { st with
          tools_used := st.tools_used ++ [tu.name]
          planning_updates := st.planning_updates ++ ["Using " ++ tu.name]
          timeline := st.timeline ++ [.status ("Using " ++ tu.name)] }
    else st
  | _ => st

/-- The legacy status-object branch (`object` absent): a truthy `status` other
than the noise sentinel with a truthy `status_message` appends a planning
step and a `Status` timeline entry. -/
def chatLegacyStatus (st : ChatState) (o : JsonObj) : ChatState :=
  match o.status with
  | none => st
  | some status =>
    let status_msg := o.status_message.getD ""
    if status ≠ "" ∧ status ≠ "REASONING_AGENT_STOP" then
      if status_msg ≠ "" then
        { st with
            planning_updates := st.planning_updates ++ [status_msg]
            timeline := st.timeline ++ [.status status_msg] }
      else st
    else st

/-- Dispatch of the chat loop on a successfully decoded JSON object. -/
def chatHandleObj (st : ChatState) (o : JsonObj) : ChatState :=
  if st.current_event = some "response.status" then chatStatus st o
  else if st.current_event = some "response.thinking.delta" then chatThinkingDelta st o
  else if st.current_event = some "response.thinking" then chatThinkingDone st o
  else if st.current_event = some "response" then st
  else if o.object = some "message.delta" then
    match o.delta with
    | some items => items.foldl chatDeltaItem st
    | none => st
  else if o.object = none then chatLegacyStatus st o
  else st

/-- One iteration of the chat loop for a non-`[DONE]` line.  Array payloads
are skipped by the `startswith('[')` guard and malformed JSON by the caught
`json.JSONDecodeError`; both leave the state untouched. -/
def chatStep (st : ChatState) (l : SSELine) : ChatState :=
  match l with
  | .event name => { st with current_event := some name }
  | .blank => st
  | .data .done => st
  | .data .malformed => st
  | .data (.obj o) => chatHandleObj st o

/-- The chat line loop: `[DONE]` breaks out before any processing. -/
def runChat (st : ChatState) : List SSELine → ChatState
  | [] => st
  | l :: rest =>
    match l with
    | .data .done => st
    | _ => runChat (chatStep st l) rest

/-! ## `_handle_error` and the outcome of `_retrieve_response` -/

/-- `_handle_error`: the Summary-shaped error object
`{"text": f"Error: {error_msg}", "sql_queries": [], "citations": []}`. -/
def handle_error (error_msg : String) : Summary :=
  { text := "Error: " ++ error_msg, sql_queries := [], citations := [] }

/-- How the transport attempt ends.  A timeout may fire after part of the
stream was already consumed; the consumed lines are recorded to express that
the error path ignores them.  (Non-SSE JSON bodies, handled by
`parse_json_response`, are outside the model.) -/
inductive TransportOutcome
  | ok (lines : List SSELine)
  | timeoutAfter (consumed : List SSELine)
  | requestError (e : String)
  | unexpected (e : String)

/-- The result of `_retrieve_response` as a function of the transport
outcome: an aggregated summary on success, the `_handle_error` object with
the branch-specific message otherwise. -/
def retrieve_response : TransportOutcome → Summary
  | .ok lines => extract_summary (parse_sse_response lines)
  | .timeoutAfter _ => handle_error "Request took longer than 120 seconds"
  | .requestError e => handle_error ("Request error: " ++ e)
  | .unexpected e => handle_error ("Unexpected error: " ++ e)

/-! ## `_smart_truncate` (`cortex_chat.py`) = `smart_truncate` (`app.py`) -/

/-- The shared accumulation loop of both truncation fallbacks: keep adding
`piece + sep` while the running text plus the suffix stays within budget,
stop at the first piece that does not fit. -/
def truncAccum (sep : String) (maxLength sufLen : Nat) : List String → String → String
  | [], acc => acc
  | piece :: rest, acc =>
    let test := acc ++ piece ++ sep
    if test.length + sufLen ≤ maxLength then truncAccum sep maxLength sufLen rest test
    else acc

/-- `smart_truncate(text, max_length, suffix)`: return short text unchanged;
otherwise prefer a sentence-boundary cut, then a word-boundary cut, then a
hard character cut, always appending the suffix. -/
def smart_truncate (text : String) (maxLength : Nat) (suffix : String) : String :=
  if text.length ≤ maxLength then text
  else
    let sentences := pySplitOn text ". "
    let bySentence : Option String :=
      if sentences.length > 1 then
        let result := truncAccum ". " maxLength suffix.length sentences ""
        if pyStrip result ≠ "" then some (pyStrip result ++ suffix) else none
      else none
    match bySentence with
    | some r => r
    | none =>
      let words := pySplitWs text
      let result := truncAccum " " maxLength suffix.length words ""
      if pyStrip result ≠ "" then pyStrip result ++ suffix
      else pySliceTo text ((maxLength : Int) - (suffix.length : Int)) ++ suffix

/-! ## Frame-level view of an SSE stream

A `Frame` is one logical protocol frame: for the explicit-event kinds an
`event:` line followed by its `data:` line, for the legacy and malformed
kinds a bare `data:` line. -/

inductive Frame
  | statusF (m : String)
  | thinkRawF (i : Nat) (f : String)
  | thinkDoneF (i : Nat) (t : String)
  | textDeltaF (s : String)
  | textDoneF (s : String)
  | toolResultF (tid : String) (c : List Blob)
  | legacyF (items : List DeltaItem)
  | badF
  deriving DecidableEq

def Frame.lines : Frame → List SSELine
  | .statusF m =>
    [.event "response.status", .data (.obj { emptyObj with message := some m })]
  | .thinkRawF i f =>
    [.event "response.thinking.delta",
     .data (.obj { emptyObj with text := some f, content_index := some i })]
  | .thinkDoneF i t =>
    [.event "response.thinking",
     .data (.obj { emptyObj with text := some t, content_index := some i })]
  | .textDeltaF s =>
    [.event "response.text.delta", .data (.obj { emptyObj with text := some s })]
  | .textDoneF s =>
    [.event "response.text", .data (.obj { emptyObj with text := some s })]
  | .toolResultF tid c =>
    [.event "response.tool_result",
     .data (.obj { emptyObj with tool_use_id := some tid, content := some c })]
  | .legacyF items =>
    [.data (.obj { emptyObj with object := some "message.delta", delta := some items })]
  | .badF => [.data .malformed]

def framesLines (fs : List Frame) : List SSELine := fs.flatMap Frame.lines

/-- The messages of the `response.status` frames of a stream, in order. -/
def statusMsgs (fs : List Frame) : List String :=
  fs.filterMap fun fr =>
    match fr with
    | .statusF m => some m
    | _ => none

/-- The contents of the `Status` timeline entries, in order. -/
def statusContents (tl : List TimelineEntry) : List String :=
  tl.filterMap fun e =>
    match e with
    | .status c => some c
    | _ => none

/-- A frame that is a planning-status frame or a thinking frame. -/
def statusOrThinking : Frame → Bool
  | .statusF _ => true
  | .thinkRawF _ _ => true
  | .thinkDoneF _ _ => true
  | _ => false

/-- The text content of a legacy `message.delta` content list. -/
def legacyText (items : List DeltaItem) : String :=
  sConcat (items.filterMap fun it =>
    match it with
    | .text s => some s
    | _ => none)

/-- The event name a frame leaves active. -/
def evAfter (ce : Option String) : Frame → Option String
  | .legacyF _ => ce
  | .badF => ce
  | .statusF _ => some "response.status"
  | .thinkRawF _ _ => some "response.thinking.delta"
  | .thinkDoneF _ _ => some "response.thinking"
  | .textDeltaF _ => some "response.text.delta"
  | .textDoneF _ => some "response.text"
  | .toolResultF _ _ => some "response.tool_result"

/-- The final-answer text a stream actually contributes: `response.text.delta`
payloads always, legacy `message.delta` text only while the active event is
not one of the five specially handled ones. -/
def gatedContrib : Option String → List Frame → String
  | _, [] => ""
  | _, .textDeltaF s :: rest => s ++ gatedContrib (some "response.text.delta") rest
  | ce, .legacyF items :: rest =>
    (if ce ∈ handledEvents then "" else legacyText items) ++ gatedContrib ce rest
  | ce, .badF :: rest => gatedContrib ce rest
  | ce, fr :: rest => gatedContrib (evAfter ce fr) rest

/-- The final-answer text the claim predicts: every `response.text.delta`
payload plus every legacy `message.delta` text content, unconditionally. -/
def plainContrib : List Frame → String
  | [] => ""
  | .textDeltaF s :: rest => s ++ plainContrib rest
  | .legacyF items :: rest => legacyText items ++ plainContrib rest
  | _ :: rest => plainContrib rest

/-- A frame contributing no final-answer text at all. -/
def noTextFrame : Frame → Prop
  | .textDeltaF _ => False
  | .legacyF items => legacyText items = ""
  | _ => True

instance (fr : Frame) : Decidable (noTextFrame fr) := by
  unfold noTextFrame; cases fr <;> infer_instance

/-- The `sql_queries` list the claim predicts: every extracted `sql_query`
value, in encounter order, with no further filtering. -/
def claimSqlQueries (r : CortexResponse) : List String :=
  r.messages.flatMap fun m => m.tool_results.filterMap (·.sql_query)

/-- What the parser's thinking branch appends to `accumulated_thinking` for a
payload with the given `text` field: the stripped inner text when the payload
is tag-wrapped with non-blank content, nothing otherwise. -/
def parserThinkAppend : Option String → List String
  | none => []
  | some t =>
    match tagInner t with
    | some inner => if pyStrip inner ≠ "" then [pyStrip inner] else []
    | none => []

/-! ## Helper lemmas: strings -/

theorem str_data_append (s t : String) : (s ++ t).data = s.data ++ t.data := rfl

theorem str_length_mk (l : List Char) : (String.mk l).length = l.length := rfl

theorem str_length_append (s t : String) : (s ++ t).length = s.length + t.length := by
  show (s.data ++ t.data).length = s.data.length + t.data.length
  exact List.length_append s.data t.data

theorem str_eq_empty_iff (s : String) : s = "" ↔ s.data = [] := by
  constructor
  · intro h; rw [h]
  · intro h
    apply String.ext
    rw [h]

theorem append_ne_empty_left (s t : String) (h : s ≠ "") : s ++ t ≠ "" := by
  intro hc
  apply h
  rw [str_eq_empty_iff] at hc ⊢
  rw [str_data_append] at hc
  exact (List.append_eq_nil.mp hc).1

theorem pyStrip_empty : pyStrip "" = "" := rfl

theorem length_dropWhile_le {α : Type} (p : α → Bool) (l : List α) :
    (l.dropWhile p).length ≤ l.length := by
  induction l with
  | nil => simp
  | cons a rest ih =>
    cases hpa : p a with
    | true =>
      rw [List.dropWhile_cons_of_pos hpa]
      exact Nat.le_succ_of_le ih
    | false =>
      rw [List.dropWhile_cons_of_neg (by simp [hpa])]

theorem pyStrip_length_le (s : String) : (pyStrip s).length ≤ s.length := by
  show (((s.data.dropWhile Char.isWhitespace).reverse.dropWhile Char.isWhitespace).reverse).length
    ≤ s.data.length
  rw [List.length_reverse]
  calc ((s.data.dropWhile Char.isWhitespace).reverse.dropWhile Char.isWhitespace).length
      ≤ (s.data.dropWhile Char.isWhitespace).reverse.length := length_dropWhile_le _ _
    _ = (s.data.dropWhile Char.isWhitespace).length := List.length_reverse _
    _ ≤ s.data.length := length_dropWhile_le _ _

theorem ne_empty_of_pyStrip_ne (s : String) (h : pyStrip s ≠ "") : s ≠ "" := by
  intro hc; rw [hc] at h; exact h pyStrip_empty

theorem sJoinSep_single (sep s : String) : sJoinSep sep [s] = s := rfl

theorem pyReplace_raw (s pat rep : String) (h : pySplitOn s pat = [s]) :
    pyReplace s pat rep = s := by
  unfold pyReplace
  rw [h]
  exact sJoinSep_single rep s

theorem tagInner_raw (s : String) (h : pySplitOn s "<thinking>" = [s]) :
    tagInner s = none := by
  unfold tagInner
  rw [h]

theorem rawFragment_clean (f : String) (h : rawFragment f) :
    pyReplace (pyReplace f "<thinking>" "") "</thinking>" "" = f := by
  rw [pyReplace_raw f "<thinking>" "" h.1, pyReplace_raw f "</thinking>" "" h.2]

/-! ## Helper lemmas: lists -/

theorem listGetD_ge {α : Type} (l : List α) (j : Nat) (d : α)
    (h : l.length ≤ j) : l.getD j d = d := by
  induction l generalizing j with
  | nil => simp [List.getD]
  | cons a rest ih =>
    cases j with
    | zero => simp at h
    | succ j' =>
      simp only [List.getD_cons_succ]
      exact ih j' (Nat.le_of_succ_le_succ h)

theorem listGetD_append_left {α : Type} (l r : List α) (j : Nat) (d : α)
    (h : j < l.length) : (l ++ r).getD j d = l.getD j d := by
  induction l generalizing j with
  | nil => simp at h
  | cons a rest ih =>
    cases j with
    | zero => rfl
    | succ j' =>
      simp only [List.cons_append, List.getD_cons_succ]
      exact ih j' (Nat.lt_of_succ_lt_succ h)

theorem listGetD_append_right {α : Type} (l r : List α) (j : Nat) (d : α)
    (h : l.length ≤ j) : (l ++ r).getD j d = r.getD (j - l.length) d := by
  induction l generalizing j with
  | nil => simp
  | cons a rest ih =>
    cases j with
    | zero => simp at h
    | succ j' =>
      simp only [List.cons_append, List.getD_cons_succ, List.length_cons,
        Nat.succ_sub_succ]
      exact ih j' (Nat.le_of_succ_le_succ h)

theorem replicate_getD_self {α : Type} (n j : Nat) (a : α) :
    (List.replicate n a).getD j a = a := by
  induction n generalizing j with
  | zero => simp [List.getD]
  | succ n' ih =>
    cases j with
    | zero => rfl
    | succ j' =>
      simp only [List.replicate_succ, List.getD_cons_succ]
      exact ih j'

theorem listGetD_set {α : Type} (l : List α) (i j : Nat) (v d : α)
    (hi : i < l.length) :
    (l.set i v).getD j d = if j = i then v else l.getD j d := by
  induction l generalizing i j with
  | nil => simp at hi
  | cons a rest ih =>
    cases i with
    | zero =>
      cases j with
      | zero => rfl
      | succ j' => simp [List.set]
    | succ i' =>
      cases j with
      | zero => simp [List.set]
      | succ j' =>
        simp only [List.set, List.getD_cons_succ, Nat.succ_eq_add_one,
          Nat.add_right_cancel_iff]
        exact ih i' j' (Nat.lt_of_succ_lt_succ hi)

theorem replicate_succ_set_last {α : Type} (i : Nat) (a v : α) :
    (List.replicate (i + 1) a).set i v = List.replicate i a ++ [v] := by
  induction i with
  | zero => rfl
  | succ i' ih =>
    show (a :: List.replicate (i' + 1) a).set (i' + 1) v = a :: (List.replicate i' a ++ [v])
    simp only [List.set]
    rw [ih]

theorem replicate_append_getD {α : Type} (i : Nat) (a c d : α) :
    (List.replicate i a ++ [c]).getD i d = c := by
  induction i with
  | zero => rfl
  | succ i' ih =>
    show (a :: (List.replicate i' a ++ [c])).getD (i' + 1) d = c
    simp only [List.getD_cons_succ]
    exact ih

theorem replicate_append_set {α : Type} (i : Nat) (a c v : α) :
    (List.replicate i a ++ [c]).set i v = List.replicate i a ++ [v] := by
  induction i with
  | zero => rfl
  | succ i' ih =>
    show (a :: (List.replicate i' a ++ [c])).set (i' + 1) v = a :: (List.replicate i' a ++ [v])
    simp only [List.set]
    rw [ih]

theorem extendTo_eq_self (l : List String) (ci : Nat) (h : ci < l.length) :
    extendTo l ci = l := by
  unfold extendTo
  have : ci + 1 - l.length = 0 := by omega
  rw [this]
  simp

theorem extendTo_nil (ci : Nat) : extendTo [] ci = List.replicate (ci + 1) "" := by
  simp [extendTo]

theorem extendTo_length (l : List String) (ci : Nat) :
    ci < (extendTo l ci).length := by
  unfold extendTo
  rw [List.length_append, List.length_replicate]
  omega

theorem extendTo_getD (l : List String) (ci j : Nat) :
    (extendTo l ci).getD j "" = l.getD j "" := by
  unfold extendTo
  by_cases h : j < l.length
  · exact listGetD_append_left l _ j "" h
  · push_neg at h
    rw [listGetD_append_right l _ j "" h, listGetD_ge l j "" h, replicate_getD_self]

/-! ## Helper lemmas: `updateLast` and `statusContents` -/

theorem updateLast_no_match (p : TimelineEntry → Bool) (fn : TimelineEntry → TimelineEntry)
    (l : List TimelineEntry) (h : ∀ e ∈ l, p e = false) : updateLast p fn l = l := by
  induction l with
  | nil => rfl
  | cons e rest ih =>
    unfold updateLast
    have hany : rest.any p = false := by
      rw [List.any_eq_false]
      intro x hx
      simp [h x (List.mem_cons_of_mem e hx)]
    rw [hany]
    simp only [Bool.false_eq_true, if_false]
    rw [h e (List.mem_cons_self e rest)]
    simp only [Bool.false_eq_true, if_false]

theorem updateLast_append_match (p : TimelineEntry → Bool) (fn : TimelineEntry → TimelineEntry)
    (l : List TimelineEntry) (e : TimelineEntry) (h : p e = true) :
    updateLast p fn (l ++ [e]) = l ++ [fn e] := by
  induction l with
  | nil =>
    show updateLast p fn [e] = [fn e]
    unfold updateLast
    simp [h]
  | cons a rest ih =>
    show updateLast p fn (a :: (rest ++ [e])) = a :: (rest ++ [fn e])
    unfold updateLast
    have hany : (rest ++ [e]).any p = true := by
      rw [List.any_eq_true]
      exact ⟨e, by simp, h⟩
    rw [hany]
    simp only [if_true]
    rw [ih]

theorem mem_of_getD {α : Type} (l : List α) (k : Nat) (d : α) (h : k < l.length) :
    l.getD k d ∈ l := by
  induction l generalizing k with
  | nil => simp at h
  | cons a rest ih =>
    cases k with
    | zero => simp [List.getD]
    | succ k' =>
      simp only [List.getD_cons_succ]
      exact List.mem_cons_of_mem a (ih k' (Nat.lt_of_succ_lt_succ h))

theorem updateLast_unique (p : TimelineEntry → Bool) (fn : TimelineEntry → TimelineEntry)
    (l : List TimelineEntry) (k : Nat) (d : TimelineEntry)
    (hk : k < l.length) (hmatch : p (l.getD k d) = true)
    (hother : ∀ j, j < l.length → j ≠ k → p (l.getD j d) = false) :
    updateLast p fn l = l.set k (fn (l.getD k d)) := by
  induction l generalizing k with
  | nil => simp at hk
  | cons e rest ih =>
    unfold updateLast
    cases k with
    | zero =>
      have hany : rest.any p = false := by
        rw [List.any_eq_false]
        intro x hx
        obtain ⟨n, hn, hxn⟩ := List.mem_iff_getElem.mp hx
        have := hother (n + 1) (by simpa using Nat.succ_lt_succ hn) (Nat.succ_ne_zero n)
        simp only [List.getD_cons_succ] at this
        rw [List.getD_eq_getElem rest d hn] at this
        rw [← hxn]
        simp [this]
      rw [hany]
      simp only [Bool.false_eq_true, if_false]
      simp only [List.getD_cons_zero] at hmatch
      rw [hmatch]
      simp [List.set]
    | succ k' =>
      have hk' : k' < rest.length := Nat.lt_of_succ_lt_succ hk
      have hany : rest.any p = true := by
        rw [List.any_eq_true]
        refine ⟨rest.getD k' d, mem_of_getD rest k' d hk', ?_⟩
        simpa using hmatch
      rw [hany]
      simp only [if_true, List.set]
      have hrec := ih k' hk' (by simpa using hmatch)
        (fun j hj hjk => by
          have hne : j + 1 ≠ k' + 1 := fun hh => hjk (Nat.succ_injective hh)
          have := hother (j + 1) (by simpa using Nat.succ_lt_succ hj) hne
          simpa using this)
      rw [hrec]
      simp

theorem statusContents_append (a b : List TimelineEntry) :
    statusContents (a ++ b) = statusContents a ++ statusContents b := by
  unfold statusContents
  exact List.filterMap_append a b _

theorem statusContents_append_thinking (l : List TimelineEntry) (c : String)
    (ci : Option Nat) :
    statusContents (l ++ [.thinking c ci]) = statusContents l := by
  rw [statusContents_append]
  simp [statusContents]

theorem statusContents_updateLast (p : TimelineEntry → Bool) (c : String)
    (l : List TimelineEntry) (hp : ∀ s, p (.status s) = false) :
    statusContents (updateLast p (setContent c) l) = statusContents l := by
  induction l with
  | nil => rfl
  | cons e rest ih =>
    unfold updateLast
    cases hany : rest.any p with
    | true =>
      simp only [if_true]
      show statusContents (e :: updateLast p (setContent c) rest) = statusContents (e :: rest)
      unfold statusContents at ih ⊢
      simp only [List.filterMap_cons]
      cases e <;> simp only [ih]
    | false =>
      simp only [Bool.false_eq_true, if_false]
      cases hpe : p e with
      | true =>
        simp only [if_true]
        cases e with
        | status s => rw [hp s] at hpe; exact absurd hpe (by simp)
        | thinking cc cci =>
          show statusContents (.thinking c cci :: rest) = statusContents (.thinking cc cci :: rest)
          unfold statusContents
          simp [List.filterMap_cons]
      | false => simp

/-! ## Helper lemmas: truncation -/

theorem truncAccum_bound (sep : String) (maxLength sufLen : Nat)
    (pieces : List String) (acc : String) :
    truncAccum sep maxLength sufLen pieces acc = acc ∨
      (truncAccum sep maxLength sufLen pieces acc).length + sufLen ≤ maxLength := by
  induction pieces generalizing acc with
  | nil => exact Or.inl rfl
  | cons piece rest ih =>
    unfold truncAccum
    by_cases h : (acc ++ piece ++ sep).length + sufLen ≤ maxLength
    · rw [if_pos h]
      rcases ih (acc ++ piece ++ sep) with heq | hle
      · right; rw [heq]; exact h
      · exact Or.inr hle
    · rw [if_neg h]
      exact Or.inl rfl

theorem pySliceTo_length_le (s : String) (m : Int) (hm : 0 ≤ m) :
    (pySliceTo s m).length ≤ m.toNat := by
  unfold pySliceTo
  rw [if_pos hm]
  show (s.data.take m.toNat).length ≤ m.toNat
  rw [List.length_take]
  exact Nat.min_le_left _ _

/-! ## Step lemmas: the parser loop, frame by frame -/

theorem framesLines_cons (fr : Frame) (fs : List Frame) :
    framesLines (fr :: fs) = Frame.lines fr ++ framesLines fs := rfl

theorem framesLines_nil : framesLines [] = [] := rfl

theorem runLines_statusF (st : ParserState) (m : String) (ls : List SSELine) :
    runLines st (Frame.lines (.statusF m) ++ ls) =
      runLines { st with status_messages := st.status_messages ++ [m],
                         current_event := some "response.status" } ls := rfl

theorem runLines_textDeltaF (st : ParserState) (s : String) (ls : List SSELine) :
    runLines st (Frame.lines (.textDeltaF s) ++ ls) =
      runLines { st with acc_text := st.acc_text ++ s,
                         current_event := some "response.text.delta" } ls := rfl

theorem runLines_textDoneF (st : ParserState) (s : String) (ls : List SSELine) :
    runLines st (Frame.lines (.textDoneF s) ++ ls) =
      runLines { st with current_event := some "response.text" } ls := rfl

theorem runLines_toolResultF (st : ParserState) (tid : String) (c : List Blob)
    (ls : List SSELine) :
    runLines st (Frame.lines (.toolResultF tid c) ++ ls) =
      runLines { st with acc_tool_results := st.acc_tool_results ++ [⟨tid, c⟩],
                         current_event := some "response.tool_result" } ls := rfl

theorem runLines_badF (st : ParserState) (ls : List SSELine) :
    runLines st (Frame.lines .badF ++ ls) = runLines st ls := rfl

theorem parserHandleEvent_thinking (st : ParserState) (o : JsonObj)
    (h : st.current_event = some "response.thinking.delta" ∨
         st.current_event = some "response.thinking") :
    parserHandleEvent st o =
      { st with accumulated_thinking := st.accumulated_thinking ++ parserThinkAppend o.text } := by
  unfold parserHandleEvent
  rw [if_pos h]
  cases o.text with
  | none => simp [parserThinkAppend]
  | some t =>
    cases htag : tagInner t with
    | none => simp [parserThinkAppend, htag]
    | some inner =>
      by_cases hcl : pyStrip inner ≠ ""
      · simp [parserThinkAppend, htag, hcl]
      · simp only [ne_eq, not_not] at hcl
        simp [parserThinkAppend, htag, hcl]

theorem runLines_thinkRawF (st : ParserState) (i : Nat) (f : String)
    (ls : List SSELine) :
    runLines st (Frame.lines (.thinkRawF i f) ++ ls) =
      runLines { st with
                   accumulated_thinking := st.accumulated_thinking ++ parserThinkAppend (some f),
                   current_event := some "response.thinking.delta" } ls := by
  show runLines (parserLegacy (parserHandleEvent
      { st with current_event := some "response.thinking.delta" }
      { emptyObj with text := some f, content_index := some i })
      { emptyObj with text := some f, content_index := some i }) ls = _
  rw [parserHandleEvent_thinking _ _ (Or.inl rfl)]
  rfl

theorem runLines_thinkDoneF (st : ParserState) (i : Nat) (t : String)
    (ls : List SSELine) :
    runLines st (Frame.lines (.thinkDoneF i t) ++ ls) =
      runLines { st with
                   accumulated_thinking := st.accumulated_thinking ++ parserThinkAppend (some t),
                   current_event := some "response.thinking" } ls := by
  show runLines (parserLegacy (parserHandleEvent
      { st with current_event := some "response.thinking" }
      { emptyObj with text := some t, content_index := some i })
      { emptyObj with text := some t, content_index := some i }) ls = _
  rw [parserHandleEvent_thinking _ _ (Or.inr rfl)]
  rfl

theorem runLines_legacyF (st : ParserState) (items : List DeltaItem)
    (ls : List SSELine) :
    runLines st (Frame.lines (.legacyF items) ++ ls) =
      runLines (if st.current_event ∈ handledEvents then st
                else { st with
                         acc_text := st.acc_text ++ (parseDeltaContent items).text,
                         acc_tool_use := st.acc_tool_use ++ (parseDeltaContent items).tool_use,
                         acc_tool_results :=
                           st.acc_tool_results ++ (parseDeltaContent items).tool_results }) ls := by
  show runLines (parserLegacy (parserHandleEvent st
      { emptyObj with object := some "message.delta", delta := some items })
      { emptyObj with object := some "message.delta", delta := some items }) ls = _
  have hhe : parserHandleEvent st
      { emptyObj with object := some "message.delta", delta := some items } = st := by
    unfold parserHandleEvent
    split
    · rfl
    · split
      · rfl
      · split
        · rfl
        · split
          · rfl
          · split
            · rfl
            · rfl
  rw [hhe]
  unfold parserLegacy
  by_cases hce : st.current_event ∈ handledEvents
  · rw [if_pos hce, if_pos hce]
  · rw [if_neg hce, if_neg hce]
    rfl

/-! ## Step lemmas: the chat loop, frame by frame -/

theorem str_empty_append (s : String) : "" ++ s = s := by
  apply String.ext
  rfl

theorem runChat_statusF (st : ChatState) (m : String) (ls : List SSELine) :
    runChat st (Frame.lines (.statusF m) ++ ls) =
      runChat { st with planning_updates := st.planning_updates ++ [m],
                        timeline := st.timeline ++ [.status m],
                        current_event := some "response.status" } ls := rfl

theorem runChat_badF (st : ChatState) (ls : List SSELine) :
    runChat st (Frame.lines .badF ++ ls) = runChat st ls := rfl

theorem runChat_thinkRawF (st : ChatState) (i : Nat) (f : String) (ls : List SSELine) :
    runChat st (Frame.lines (.thinkRawF i f) ++ ls) =
      runChat (chatThinkingDelta { st with current_event := some "response.thinking.delta" }
        { emptyObj with text := some f, content_index := some i }) ls := rfl

theorem runChat_thinkDoneF (st : ChatState) (i : Nat) (t : String) (ls : List SSELine) :
    runChat st (Frame.lines (.thinkDoneF i t) ++ ls) =
      runChat (chatThinkingDone { st with current_event := some "response.thinking" }
        { emptyObj with text := some t, content_index := some i }) ls := rfl

theorem isThinkingAt_self (c : String) (i : Nat) :
    isThinkingAt i (.thinking c (some i)) = true := by
  simp [isThinkingAt]

/-- First raw fragment for a slot whose update list is still empty: the slot
list is grown, the fragment lands in slot `i`, one timeline entry appears. -/
theorem chatThinkingDelta_raw_fresh (st : ChatState) (i : Nat) (f : String)
    (hraw : rawFragment f) (hne : f ≠ "") (htu : st.thinking_updates = []) :
    chatThinkingDelta st { emptyObj with text := some f, content_index := some i } =
      { st with thinking_updates := List.replicate i "" ++ [f],
                timeline := st.timeline ++ [.thinking (pyStrip f) (some i)] } := by
  unfold chatThinkingDelta
  show (match tagInner f with
    | some inner => _
    | none => _) = _
  rw [tagInner_raw f hraw.1]
  simp only
  rw [rawFragment_clean f hraw]
  rw [if_pos hne]
  simp only [Option.getD_some, htu, extendTo_nil, replicate_getD_self, if_true]
  rw [str_empty_append, replicate_succ_set_last, replicate_append_getD,
    updateLast_append_match _ _ _ _ (isThinkingAt_self (pyStrip f) i)]
  simp [setContent]

/-- Subsequent raw fragment for slot `i`: the fragment is appended verbatim,
and the (final) timeline entry for slot `i` is rewritten to the stripped
accumulated text. -/
theorem chatThinkingDelta_raw_next (st : ChatState) (i : Nat) (f c d : String)
    (T : List TimelineEntry)
    (hraw : rawFragment f) (hne : f ≠ "") (hc : c ≠ "")
    (htu : st.thinking_updates = List.replicate i "" ++ [c])
    (htl : st.timeline = T ++ [.thinking d (some i)]) :
    chatThinkingDelta st { emptyObj with text := some f, content_index := some i } =
      { st with thinking_updates := List.replicate i "" ++ [c ++ f],
                timeline := T ++ [.thinking (pyStrip (c ++ f)) (some i)] } := by
  unfold chatThinkingDelta
  show (match tagInner f with
    | some inner => _
    | none => _) = _
  rw [tagInner_raw f hraw.1]
  simp only
  rw [rawFragment_clean f hraw]
  rw [if_pos hne]
  have hext : extendTo (List.replicate i "" ++ [c]) i = List.replicate i "" ++ [c] :=
    extendTo_eq_self _ i (by simp)
  simp only [Option.getD_some, htu, hext, replicate_append_getD]
  rw [if_neg hc, replicate_append_set, replicate_append_getD, htl,
    updateLast_append_match _ _ _ _ (isThinkingAt_self d i)]
  simp [setContent]

/-- The thinking-delta branch never touches the status projection of the
timeline, the planning updates, or the tool bookkeeping. -/
theorem chatThinkingDelta_inv (st : ChatState) (o : JsonObj) :
    statusContents (chatThinkingDelta st o).timeline = statusContents st.timeline ∧
    (chatThinkingDelta st o).planning_updates = st.planning_updates := by
  unfold chatThinkingDelta
  cases o.text with
  | none => exact ⟨rfl, rfl⟩
  | some t =>
    simp only
    cases tagInner t with
    | some inner =>
      simp only
      by_cases h1 : pyStrip inner ≠ ""
      · rw [if_pos h1]
        by_cases h2 : st.thinking_updates ≠ []
        · rw [if_pos h2]
          exact ⟨statusContents_updateLast _ _ _ (fun s => rfl), rfl⟩
        · rw [if_neg h2]
          exact ⟨statusContents_append_thinking _ _ _, rfl⟩
      · rw [if_neg h1]
        exact ⟨rfl, rfl⟩
    | none =>
      simp only
      by_cases h1 : pyReplace (pyReplace t "<thinking>" "") "</thinking>" "" ≠ ""
      · rw [if_pos h1]
        refine ⟨?_, rfl⟩
        rw [statusContents_updateLast _ _ _ (fun s => rfl)]
        by_cases h2 : (extendTo st.thinking_updates (o.content_index.getD 0)).getD
            (o.content_index.getD 0) "" = ""
        · rw [if_pos h2, statusContents_append_thinking]
        · rw [if_neg h2]
      · rw [if_neg h1]
        exact ⟨rfl, rfl⟩

/-- The complete-thinking branch likewise. -/
theorem chatThinkingDone_inv (st : ChatState) (o : JsonObj) :
    statusContents (chatThinkingDone st o).timeline = statusContents st.timeline ∧
    (chatThinkingDone st o).planning_updates = st.planning_updates := by
  unfold chatThinkingDone
  cases o.text with
  | none => exact ⟨rfl, rfl⟩
  | some t =>
    simp only
    cases tagInner t with
    | none => exact ⟨rfl, rfl⟩
    | some inner =>
      simp only
      by_cases h1 : pyStrip inner ≠ ""
      · rw [if_pos h1]
        refine ⟨?_, rfl⟩
        by_cases h2 : st.timeline.any (isThinkingAt (o.content_index.getD 0))
        · rw [if_pos h2]
          exact statusContents_updateLast _ _ _ (fun s => rfl)
        · rw [if_neg h2, statusContents_append_thinking]
      · rw [if_neg h1]
        exact ⟨rfl, rfl⟩

/-! ## Master lemmas over frame streams -/

theorem str_append_empty (s : String) : s ++ "" = s := by
  apply String.ext
  show s.data ++ [] = s.data
  exact List.append_nil s.data

theorem str_append_assoc (a b c : String) : a ++ b ++ c = a ++ (b ++ c) := by
  apply String.ext
  show (a.data ++ b.data) ++ c.data = a.data ++ (b.data ++ c.data)
  exact List.append_assoc a.data b.data c.data

theorem gatedContrib_statusF (ce : Option String) (m : String) (fs : List Frame) :
    gatedContrib ce (.statusF m :: fs) = gatedContrib (some "response.status") fs := rfl

theorem gatedContrib_thinkRawF (ce : Option String) (i : Nat) (f : String) (fs : List Frame) :
    gatedContrib ce (.thinkRawF i f :: fs) =
      gatedContrib (some "response.thinking.delta") fs := rfl

theorem gatedContrib_thinkDoneF (ce : Option String) (i : Nat) (t : String) (fs : List Frame) :
    gatedContrib ce (.thinkDoneF i t :: fs) = gatedContrib (some "response.thinking") fs := rfl

theorem gatedContrib_textDeltaF (ce : Option String) (s : String) (fs : List Frame) :
    gatedContrib ce (.textDeltaF s :: fs) =
      s ++ gatedContrib (some "response.text.delta") fs := rfl

theorem gatedContrib_textDoneF (ce : Option String) (s : String) (fs : List Frame) :
    gatedContrib ce (.textDoneF s :: fs) = gatedContrib (some "response.text") fs := rfl

theorem gatedContrib_toolResultF (ce : Option String) (tid : String) (c : List Blob)
    (fs : List Frame) :
    gatedContrib ce (.toolResultF tid c :: fs) =
      gatedContrib (some "response.tool_result") fs := rfl

theorem gatedContrib_legacyF (ce : Option String) (items : List DeltaItem) (fs : List Frame) :
    gatedContrib ce (.legacyF items :: fs) =
      (if ce ∈ handledEvents then "" else legacyText items) ++ gatedContrib ce fs := rfl

theorem gatedContrib_badF (ce : Option String) (fs : List Frame) :
    gatedContrib ce (.badF :: fs) = gatedContrib ce fs := rfl

theorem legacyText_cons_text (s : String) (items : List DeltaItem) :
    legacyText (.text s :: items) = s ++ legacyText items := by
  unfold legacyText
  rw [List.filterMap_cons]
  rfl

theorem parseDeltaContent_text_aux (items : List DeltaItem) (r : DeltaParsed) :
    (items.foldl pdcStep r).text = r.text ++ legacyText items := by
  induction items generalizing r with
  | nil => rw [List.foldl_nil]; exact (str_append_empty r.text).symm
  | cons it rest ih =>
    rw [List.foldl_cons]
    cases it with
    | text s =>
      rw [ih]
      show r.text ++ s ++ legacyText rest = r.text ++ legacyText (.text s :: rest)
      rw [legacyText_cons_text, str_append_assoc]
    | tool_use tu => rw [ih]; rfl
    | tool_results tr => rw [ih]; rfl
    | tool_result tr => rw [ih]; rfl
    | other => rw [ih]; rfl

theorem parseDeltaContent_text (items : List DeltaItem) :
    (parseDeltaContent items).text = legacyText items := by
  unfold parseDeltaContent
  rw [parseDeltaContent_text_aux]
  exact str_empty_append _

/-- The accumulated final-answer text after a whole frame stream: every
`response.text.delta` payload plus the event-gated legacy text. -/
theorem runLines_accText (fs : List Frame) (st : ParserState) :
    (runLines st (framesLines fs)).acc_text =
      st.acc_text ++ gatedContrib st.current_event fs := by
  induction fs generalizing st with
  | nil => rw [framesLines_nil]; exact (str_append_empty _).symm
  | cons fr fs ih =>
    rw [framesLines_cons]
    cases fr with
    | statusF m =>
      rw [runLines_statusF, ih, gatedContrib_statusF]
    | thinkRawF i f =>
      rw [runLines_thinkRawF, ih, gatedContrib_thinkRawF]
    | thinkDoneF i t =>
      rw [runLines_thinkDoneF, ih, gatedContrib_thinkDoneF]
    | textDeltaF s =>
      rw [runLines_textDeltaF, ih, gatedContrib_textDeltaF, str_append_assoc]
    | textDoneF s =>
      rw [runLines_textDoneF, ih, gatedContrib_textDoneF]
    | toolResultF tid c =>
      rw [runLines_toolResultF, ih, gatedContrib_toolResultF]
    | legacyF items =>
      rw [runLines_legacyF, gatedContrib_legacyF]
      by_cases hce : st.current_event ∈ handledEvents
      · rw [if_pos hce, if_pos hce, ih, str_empty_append]
      · rw [if_neg hce, if_neg hce, ih]
        show st.acc_text ++ (parseDeltaContent items).text ++ gatedContrib st.current_event fs = _
        rw [parseDeltaContent_text, str_append_assoc]
    | badF =>
      rw [runLines_badF, ih, gatedContrib_badF]

/-- The parser's `status_messages` after a stream of status/thinking frames. -/
theorem runLines_statusMsgs (fs : List Frame) (st : ParserState)
    (h : ∀ fr ∈ fs, statusOrThinking fr = true) :
    (runLines st (framesLines fs)).status_messages =
      st.status_messages ++ statusMsgs fs := by
  induction fs generalizing st with
  | nil => rw [framesLines_nil]; simp [statusMsgs, runLines]
  | cons fr fs ih =>
    have hfr := h fr (List.mem_cons_self fr fs)
    have hrest : ∀ fr2 ∈ fs, statusOrThinking fr2 = true :=
      fun fr2 hm => h fr2 (List.mem_cons_of_mem fr hm)
    rw [framesLines_cons]
    cases fr with
    | statusF m =>
      rw [runLines_statusF, ih _ hrest]
      show (st.status_messages ++ [m]) ++ statusMsgs fs = _
      simp [statusMsgs, List.filterMap_cons]
    | thinkRawF i f =>
      rw [runLines_thinkRawF, ih _ hrest]
      show st.status_messages ++ statusMsgs fs = _
      simp [statusMsgs, List.filterMap_cons]
    | thinkDoneF i t =>
      rw [runLines_thinkDoneF, ih _ hrest]
      show st.status_messages ++ statusMsgs fs = _
      simp [statusMsgs, List.filterMap_cons]
    | textDeltaF s => simp [statusOrThinking] at hfr
    | textDoneF s => simp [statusOrThinking] at hfr
    | toolResultF tid c => simp [statusOrThinking] at hfr
    | legacyF items => simp [statusOrThinking] at hfr
    | badF => simp [statusOrThinking] at hfr

/-- The chat loop's `Status` timeline projection and planning updates after a
stream of status/thinking frames. -/
theorem runChat_statusProj (fs : List Frame) (st : ChatState)
    (h : ∀ fr ∈ fs, statusOrThinking fr = true) :
    statusContents (runChat st (framesLines fs)).timeline =
        statusContents st.timeline ++ statusMsgs fs ∧
      (runChat st (framesLines fs)).planning_updates =
        st.planning_updates ++ statusMsgs fs := by
  induction fs generalizing st with
  | nil =>
    rw [framesLines_nil]
    simp [statusMsgs, runChat]
  | cons fr fs ih =>
    have hfr := h fr (List.mem_cons_self fr fs)
    have hrest : ∀ fr2 ∈ fs, statusOrThinking fr2 = true :=
      fun fr2 hm => h fr2 (List.mem_cons_of_mem fr hm)
    rw [framesLines_cons]
    cases fr with
    | statusF m =>
      rw [runChat_statusF]
      obtain ⟨h1, h2⟩ := ih _ hrest
      rw [h1, h2]
      constructor
      · show statusContents (st.timeline ++ [.status m]) ++ statusMsgs fs = _
        rw [statusContents_append]
        simp [statusContents, statusMsgs, List.filterMap_cons]
      · simp [statusMsgs, List.filterMap_cons]
    | thinkRawF i f =>
      rw [runChat_thinkRawF]
      obtain ⟨h1, h2⟩ := ih _ hrest
      obtain ⟨hi1, hi2⟩ := chatThinkingDelta_inv
        { st with current_event := some "response.thinking.delta" }
        { emptyObj with text := some f, content_index := some i }
      rw [h1, h2, hi1, hi2]
      constructor
      · simp [statusMsgs, List.filterMap_cons]
      · simp [statusMsgs, List.filterMap_cons]
    | thinkDoneF i t =>
      rw [runChat_thinkDoneF]
      obtain ⟨h1, h2⟩ := ih _ hrest
      obtain ⟨hi1, hi2⟩ := chatThinkingDone_inv
        { st with current_event := some "response.thinking" }
        { emptyObj with text := some t, content_index := some i }
      rw [h1, h2, hi1, hi2]
      constructor
      · simp [statusMsgs, List.filterMap_cons]
      · simp [statusMsgs, List.filterMap_cons]
    | textDeltaF s => simp [statusOrThinking] at hfr
    | textDoneF s => simp [statusOrThinking] at hfr
    | toolResultF tid c => simp [statusOrThinking] at hfr
    | legacyF items => simp [statusOrThinking] at hfr
    | badF => simp [statusOrThinking] at hfr

/-! ## Finalization lemmas -/

theorem lastAssistantText_all_empty (ms : List ParsedMessage)
    (h : ∀ m ∈ ms, m.text_content = "") : lastAssistantText ms = "" := by
  induction ms with
  | nil => rfl
  | cons m rest ih =>
    unfold lastAssistantText
    by_cases hr : m.role = "assistant"
    · rw [if_pos hr]
      exact h m (List.mem_cons_self m rest)
    · rw [if_neg hr]
      exact ih fun m2 hm => h m2 (List.mem_cons_of_mem m hm)

theorem thinkingMessages_text_empty (ts : List String) (m : ParsedMessage)
    (h : m ∈ thinkingMessages ts) : m.text_content = "" := by
  unfold thinkingMessages at h
  obtain ⟨t, _, rfl⟩ := List.mem_map.mp h
  rfl

theorem filterMap_map_none {α β γ : Type} (l : List α) (g : α → β) (f : β → Option γ)
    (h : ∀ a, f (g a) = none) : (l.map g).filterMap f = [] := by
  induction l with
  | nil => rfl
  | cons a rest ih =>
    rw [List.map_cons, List.filterMap_cons, h a]
    exact ih

theorem agg_text_content (st : ParserState) :
    (ParsedMessage.mk "assistant"
      ((if st.acc_text ≠ "" then [ContentItem.text st.acc_text] else [])
        ++ st.acc_tool_use.map ContentItem.tool_use
        ++ st.acc_tool_results.map ContentItem.tool_results)).text_content = st.acc_text := by
  unfold ParsedMessage.text_content
  simp only [List.filterMap_append]
  rw [filterMap_map_none st.acc_tool_use ContentItem.tool_use _ (fun a => rfl),
      filterMap_map_none st.acc_tool_results ContentItem.tool_results _ (fun a => rfl)]
  by_cases h : st.acc_text ≠ ""
  · rw [if_pos h]
    show sConcat ([st.acc_text] ++ [] ++ []) = st.acc_text
    simp [sConcat, str_append_empty]
  · rw [if_neg h]
    simp only [ne_eq, not_not] at h
    simp [sConcat, h]

/-- Reverse-scan extraction over the finalized message list always recovers
exactly the accumulated delta text: the aggregated assistant message is last
(when present), and the thinking pseudo-messages, though assistant-role,
carry no `text`-typed content. -/
theorem finalize_final_text (st : ParserState) :
    (finalizeResponse st).final_text = st.acc_text := by
  unfold finalizeResponse CortexResponse.final_text aggMessages
  by_cases hagg : st.acc_text ≠ "" ∨ st.acc_tool_use ≠ [] ∨ st.acc_tool_results ≠ []
  · rw [if_pos hagg]
    simp only [List.reverse_append, List.reverse_cons, List.reverse_nil,
      List.nil_append, List.cons_append]
    show lastAssistantText (ParsedMessage.mk "assistant" _ ::
      (thinkingMessages st.accumulated_thinking).reverse) = st.acc_text
    unfold lastAssistantText
    rw [if_pos rfl]
    exact agg_text_content st
  · rw [if_neg hagg]
    push_neg at hagg
    obtain ⟨h1, _, _⟩ := hagg
    rw [List.append_nil]
    rw [lastAssistantText_all_empty _ (fun m hm =>
      thinkingMessages_text_empty _ m (List.mem_reverse.mp hm))]
    exact h1.symm

theorem aggMessages_length_le (st : ParserState) : (aggMessages st).length ≤ 1 := by
  unfold aggMessages
  split
  · simp
  · simp

/-! ## Raw-fragment accumulation (claim C1) -/

theorem runChat_rawFrames (fs : List String) (st : ChatState) (i : Nat) (c : String)
    (T : List TimelineEntry)
    (hfs : ∀ f ∈ fs, rawFragment f ∧ f ≠ "") (hc : c ≠ "")
    (htu : st.thinking_updates = List.replicate i "" ++ [c])
    (htl : st.timeline = T ++ [.thinking (pyStrip c) (some i)]) :
    (runChat st (framesLines (fs.map (Frame.thinkRawF i)))).thinking_updates =
        List.replicate i "" ++ [c ++ sConcat fs] ∧
      (runChat st (framesLines (fs.map (Frame.thinkRawF i)))).timeline =
        T ++ [.thinking (pyStrip (c ++ sConcat fs)) (some i)] := by
  induction fs generalizing st c with
  | nil =>
    show (runChat st (framesLines [])).thinking_updates = _ ∧
      (runChat st (framesLines [])).timeline = _
    rw [framesLines_nil]
    show st.thinking_updates = _ ∧ st.timeline = _
    rw [htu, htl]
    constructor
    · rw [show c ++ sConcat [] = c from str_append_empty c]
    · rw [show c ++ sConcat [] = c from str_append_empty c]
  | cons f fs ih =>
    have hf := hfs f (List.mem_cons_self f fs)
    have hrest : ∀ f2 ∈ fs, rawFragment f2 ∧ f2 ≠ "" :=
      fun f2 hm => hfs f2 (List.mem_cons_of_mem f hm)
    simp only [List.map_cons, framesLines_cons, runChat_thinkRawF]
    have hstep := chatThinkingDelta_raw_next
      { st with current_event := some "response.thinking.delta" } i f c (pyStrip c) T
      hf.1 hf.2 hc htu htl
    rw [hstep]
    obtain ⟨ih1, ih2⟩ := ih
      { st with current_event := some "response.thinking.delta",
                thinking_updates := List.replicate i "" ++ [c ++ f],
                timeline := T ++ [.thinking (pyStrip (c ++ f)) (some i)] }
      (c ++ f) hrest (append_ne_empty_left c f hc) rfl rfl
    rw [ih1, ih2]
    constructor
    · rw [str_append_assoc]
      rfl
    · rw [str_append_assoc]
      rfl

/-! ## Halting and error-skipping lemmas -/

theorem runLines_halt (pre post : List SSELine) (st : ParserState) :
    runLines st (pre ++ .data .done :: post) = runLines st (pre ++ [.data .done]) := by
  induction pre generalizing st with
  | nil => rfl
  | cons l pre ih =>
    cases l with
    | event name => exact ih _
    | blank => exact ih _
    | data d =>
      cases d with
      | done => rfl
      | malformed => exact ih _
      | obj o => exact ih _

theorem runChat_halt (pre post : List SSELine) (st : ChatState) :
    runChat st (pre ++ .data .done :: post) = runChat st (pre ++ [.data .done]) := by
  induction pre generalizing st with
  | nil => rfl
  | cons l pre ih =>
    cases l with
    | event name => exact ih _
    | blank => exact ih _
    | data d =>
      cases d with
      | done => rfl
      | malformed => exact ih _
      | obj o => exact ih _

theorem runLines_skipBad (pre post : List SSELine) (st : ParserState) :
    runLines st (pre ++ .data .malformed :: post) = runLines st (pre ++ post) := by
  induction pre generalizing st with
  | nil =>
    show runLines st (.data .malformed :: post) = runLines st post
    rfl
  | cons l pre ih =>
    cases l with
    | event name => exact ih _
    | blank => exact ih _
    | data d =>
      cases d with
      | done => rfl
      | malformed => exact ih _
      | obj o => exact ih _

theorem runChat_skipBad (pre post : List SSELine) (st : ChatState) :
    runChat st (pre ++ .data .malformed :: post) = runChat st (pre ++ post) := by
  induction pre generalizing st with
  | nil =>
    show runChat st (.data .malformed :: post) = runChat st post
    rfl
  | cons l pre ih =>
    cases l with
    | event name => exact ih _
    | blank => exact ih _
    | data d =>
      cases d with
      | done => rfl
      | malformed => exact ih _
      | obj o => exact ih _

/-! ## Claim C5 -/

/-- C5: processing halts at the `[DONE]` sentinel — both the parser and the
chat loop produce, on `pre ++ [DONE] ++ post`, exactly the state they produce
on `pre ++ [DONE]`; no frame of `post` affects status messages, thinking,
timeline, accumulated text, tool uses or tool results. -/
theorem done_sentinel_halts (pre post : List SSELine) :
    parse_sse_response (pre ++ .data .done :: post) =
        parse_sse_response (pre ++ [.data .done]) ∧
      runChat chatInit (pre ++ .data .done :: post) =
        runChat chatInit (pre ++ [.data .done]) := by
  constructor
  · unfold parse_sse_response
    rw [runLines_halt]
  · rw [runChat_halt]

/-! ## Claim C6 -/

/-- C6: one malformed `data:` JSON line is silently skipped — the parsed
response, the derived summary, and the chat-loop state are identical to those
of the stream with the bad line removed (for every surrounding stream, in
particular well-formed ones). -/
theorem malformed_line_skipped (pre post : List SSELine) :
    parse_sse_response (pre ++ .data .malformed :: post) =
        parse_sse_response (pre ++ post) ∧
      extract_summary (parse_sse_response (pre ++ .data .malformed :: post)) =
        extract_summary (parse_sse_response (pre ++ post)) ∧
      runChat chatInit (pre ++ .data .malformed :: post) =
        runChat chatInit (pre ++ post) := by
  have hp : parse_sse_response (pre ++ .data .malformed :: post) =
      parse_sse_response (pre ++ post) := by
    unfold parse_sse_response
    rw [runLines_skipBad]
  exact ⟨hp, by rw [hp], runChat_skipBad pre post chatInit⟩

/-! ## Claim C1 -/

/-- C1: for a stream of raw (tag-free, non-empty) `response.thinking.delta`
fragments all carrying the same `content_index`, the thinking accumulator
slot for that index ends up as the exact character-for-character
concatenation of the fragments, and the timeline holds exactly one
`Thinking` entry for that index, whose content is the concatenation with
only leading/trailing whitespace stripped. -/
theorem thinking_delta_accumulates (i : Nat) (fs : List String)
    (hne : fs ≠ []) (hfs : ∀ f ∈ fs, rawFragment f ∧ f ≠ "") :
    (runChat chatInit (framesLines (fs.map (Frame.thinkRawF i)))).thinking_updates.getD i ""
        = sConcat fs ∧
      (runChat chatInit (framesLines (fs.map (Frame.thinkRawF i)))).timeline
        = [.thinking (pyStrip (sConcat fs)) (some i)] := by
  cases fs with
  | nil => exact absurd rfl hne
  | cons f fs =>
    have hf := hfs f (List.mem_cons_self f fs)
    have hrest : ∀ f2 ∈ fs, rawFragment f2 ∧ f2 ≠ "" :=
      fun f2 hm => hfs f2 (List.mem_cons_of_mem f hm)
    simp only [List.map_cons, framesLines_cons, runChat_thinkRawF]
    have hstep := chatThinkingDelta_raw_fresh
      { chatInit with current_event := some "response.thinking.delta" } i f
      hf.1 hf.2 rfl
    rw [hstep]
    obtain ⟨h1, h2⟩ := runChat_rawFrames fs
      { chatInit with current_event := some "response.thinking.delta",
                      thinking_updates := List.replicate i "" ++ [f],
                      timeline := chatInit.timeline ++ [.thinking (pyStrip f) (some i)] }
      i f [] hrest hf.2 rfl rfl
    rw [h1, h2]
    constructor
    · rw [replicate_append_getD]
      rfl
    · rfl

/-- Witness for C1: the two fragments of the spec's own scenario. -/
theorem thinking_delta_accumulates_witness :
    (runChat chatInit (framesLines
        ([("Look" : String), "ing up data"].map (Frame.thinkRawF 0)))).thinking_updates.getD 0 ""
        = "Looking up data" ∧
      (runChat chatInit (framesLines
        ([("Look" : String), "ing up data"].map (Frame.thinkRawF 0)))).timeline
        = [.thinking "Looking up data" (some 0)] := by
  have h := thinking_delta_accumulates 0 ["Look", "ing up data"]
    (by decide) (by decide)
  constructor
  · rw [h.1]; decide
  · rw [h.2]; decide

/-! ## Claim C2 -/

theorem isThinkingAt_elim (i : Nat) (e : TimelineEntry) (h : isThinkingAt i e = true) :
    ∃ cc, e = .thinking cc (some i) := by
  cases e with
  | status s => simp [isThinkingAt] at h
  | thinking cc ci =>
    simp only [isThinkingAt, beq_iff_eq] at h
    exact ⟨cc, by rw [h]⟩

/-- C2: a complete `response.thinking` event whose payload is tag-wrapped
with non-blank inner text overwrites — never appends to — the thinking slot
`content_index` (every other slot is untouched), updates the existing
`Thinking` timeline entry for that index in place at its original position,
and appends a new entry only when none exists for that index. -/
theorem thinking_complete_overwrites (st : ChatState) (i : Nat) (t c : String)
    (htag : tagInner t = some c) (hcl : pyStrip c ≠ "") :
    (∀ j, (runChat st [.event "response.thinking",
        .data (.obj { emptyObj with text := some t, content_index := some i })]).thinking_updates.getD j ""
        = if j = i then pyStrip c else st.thinking_updates.getD j "") ∧
      ((∀ e ∈ st.timeline, isThinkingAt i e = false) →
        (runChat st [.event "response.thinking",
          .data (.obj { emptyObj with text := some t, content_index := some i })]).timeline
          = st.timeline ++ [.thinking (pyStrip (pyStrip c)) (some i)]) ∧
      (∀ k, k < st.timeline.length →
        isThinkingAt i (st.timeline.getD k (.status "")) = true →
        (∀ j, j < st.timeline.length → j ≠ k →
          isThinkingAt i (st.timeline.getD j (.status "")) = false) →
        (runChat st [.event "response.thinking",
          .data (.obj { emptyObj with text := some t, content_index := some i })]).timeline
          = st.timeline.set k (.thinking (pyStrip (pyStrip c)) (some i))) ∧
      (runChat st [.event "response.thinking",
          .data (.obj { emptyObj with text := some t })] =
        runChat st [.event "response.thinking",
          .data (.obj { emptyObj with text := some t, content_index := some 0 })]) := by
  have hred : runChat st [.event "response.thinking",
      .data (.obj { emptyObj with text := some t, content_index := some i })] =
    chatThinkingDone { st with current_event := some "response.thinking" }
      { emptyObj with text := some t, content_index := some i } := rfl
  have hdone : chatThinkingDone { st with current_event := some "response.thinking" }
      { emptyObj with text := some t, content_index := some i } =
    { st with
        current_event := some "response.thinking"
        thinking_updates := (extendTo st.thinking_updates i).set i (pyStrip c)
        timeline :=
          if st.timeline.any (isThinkingAt i) then
            updateLast (isThinkingAt i) (setContent (pyStrip (pyStrip c))) st.timeline
          else st.timeline ++ [.thinking (pyStrip (pyStrip c)) (some i)] } := by
    unfold chatThinkingDone
    show (match tagInner t with
      | none => _
      | some inner => _) = _
    rw [htag]
    simp only
    rw [if_pos hcl]
    rfl
  rw [hred, hdone]
  refine ⟨?_, ?_, ?_, rfl⟩
  · intro j
    show ((extendTo st.thinking_updates i).set i (pyStrip c)).getD j "" = _
    rw [listGetD_set _ i j _ "" (extendTo_length st.thinking_updates i)]
    by_cases hj : j = i
    · rw [if_pos hj, if_pos hj]
    · rw [if_neg hj, if_neg hj, extendTo_getD]
  · intro hno
    have hany : st.timeline.any (isThinkingAt i) = false := by
      rw [List.any_eq_false]
      intro e he
      rw [hno e he]
      simp
    show (if st.timeline.any (isThinkingAt i) then _ else _) = _
    rw [hany]
    simp
  · intro k hk hmatch hother
    have hany : st.timeline.any (isThinkingAt i) = true := by
      rw [List.any_eq_true]
      exact ⟨st.timeline.getD k (.status ""), mem_of_getD _ k _ hk, hmatch⟩
    show (if st.timeline.any (isThinkingAt i) then _ else _) = _
    rw [hany]
    simp only [if_true]
    rw [updateLast_unique (isThinkingAt i) _ st.timeline k (.status "") hk hmatch hother]
    obtain ⟨cc, hcc⟩ := isThinkingAt_elim i _ hmatch
    rw [hcc]
    rfl

/-- Witness for C2: a state with one prior thinking entry for index 0; the
complete event replaces both the slot and the timeline entry in place. -/
theorem thinking_complete_overwrites_witness :
    (runChat ⟨[], ["old"], [.thinking "old" (some 0)], [], "", none⟩
        [.event "response.thinking",
         .data (.obj { emptyObj with
                       text := some "<thinking> new </thinking>"
                       content_index := some 0 })]).thinking_updates.getD 0 "" = "new" ∧
      (runChat ⟨[], ["old"], [.thinking "old" (some 0)], [], "", none⟩
        [.event "response.thinking",
         .data (.obj { emptyObj with
                       text := some "<thinking> new </thinking>"
                       content_index := some 0 })]).timeline = [.thinking "new" (some 0)] := by
  have h := thinking_complete_overwrites
    ⟨[], ["old"], [.thinking "old" (some 0)], [], "", none⟩ 0
    "<thinking> new </thinking>" " new " (by decide) (by decide)
  constructor
  · have h1 := h.1 0
    rw [if_pos rfl] at h1
    rw [h1]
    decide
  · have h3 := h.2.2.1 0 (by decide) (by decide)
      (fun j hj hjne => absurd (Nat.lt_one_iff.mp hj) hjne)
    rw [h3]
    decide

/-! ## Claim C3 -/

/-- C3: over any stream of `response.status` frames interleaved with thinking
frames, the parser's `status_messages` is exactly the list of status payloads
in arrival order; the chat timeline's `Status` entries are exactly those
messages in the same order (thinking frames never disturb them), as are the
planning updates; and each status frame appends its entry at the end of the
timeline at its arrival point. -/
theorem status_frames_ordered (fs : List Frame)
    (h : ∀ fr ∈ fs, statusOrThinking fr = true) :
    (parse_sse_response (framesLines fs)).status_messages = statusMsgs fs ∧
      statusContents (runChat chatInit (framesLines fs)).timeline = statusMsgs fs ∧
      (runChat chatInit (framesLines fs)).planning_updates = statusMsgs fs ∧
      (∀ st : ChatState, ∀ m : String,
        runChat st (Frame.lines (.statusF m)) =
          { st with planning_updates := st.planning_updates ++ [m],
                    timeline := st.timeline ++ [.status m],
                    current_event := some "response.status" }) := by
  refine ⟨?_, ?_, ?_, fun st m => rfl⟩
  · show (finalizeResponse (runLines parserInit (framesLines fs))).status_messages = _
    have hrun := runLines_statusMsgs fs parserInit h
    show (runLines parserInit (framesLines fs)).status_messages = _
    rw [hrun]
    rfl
  · have hrun := (runChat_statusProj fs chatInit h).1
    rw [hrun]
    rfl
  · have hrun := (runChat_statusProj fs chatInit h).2
    rw [hrun]
    rfl

/-- Witness for C3: two status frames around a thinking fragment. -/
theorem status_frames_ordered_witness :
    (parse_sse_response (framesLines
        [.statusF "Planning", .thinkRawF 0 "hm", .statusF "Running SQL"])).status_messages
        = ["Planning", "Running SQL"] ∧
      statusContents (runChat chatInit (framesLines
        [.statusF "Planning", .thinkRawF 0 "hm", .statusF "Running SQL"])).timeline
        = ["Planning", "Running SQL"] := by
  have h := status_frames_ordered
    [.statusF "Planning", .thinkRawF 0 "hm", .statusF "Running SQL"] (by decide)
  exact ⟨by rw [h.1]; decide, by rw [h.2.1]; decide⟩

/-! ## Claim C4 (corrected) -/

/-- C4 counterexample: the claim as stated predicts that legacy
`message.delta` text content is always concatenated into the final text.  On
the stream `event: response.text.delta / data {"text":"A"}` followed by a
bare legacy delta line carrying text `"B"`, the code keeps the active event
`response.text.delta`, so its double-processing guard drops `"B"`: the
summary text is `"A"`, not the predicted `"AB"`. -/
theorem final_text_concat_cex :
    (extract_summary (parse_sse_response (framesLines
        [.textDeltaF "A", .legacyF [.text "B"]]))).text ≠
      plainContrib [.textDeltaF "A", .legacyF [.text "B"]] := by
  decide

/-- C4 (amended): the summary text equals the arrival-order concatenation of
all `response.text.delta` payloads plus the legacy `message.delta` text
content of exactly those legacy frames that arrive while the active event is
not one of the five specially handled ones; complete `response.text` frames
contribute nothing.  Finalization emits the thinking pseudo-messages first
and at most one aggregated assistant message last, and the reverse-scan
`final_text` extraction always recovers exactly the accumulated text. -/
theorem final_text_concat_amended (fs : List Frame) :
    (extract_summary (parse_sse_response (framesLines fs))).text =
        gatedContrib none fs ∧
      (∀ st : ParserState,
        (finalizeResponse st).messages =
            thinkingMessages st.accumulated_thinking ++ aggMessages st ∧
          (aggMessages st).length ≤ 1 ∧
          (finalizeResponse st).final_text = st.acc_text) := by
  constructor
  · show (parse_sse_response (framesLines fs)).final_text = _
    unfold parse_sse_response
    rw [finalize_final_text, runLines_accText]
    exact str_empty_append _
  · intro st
    exact ⟨rfl, aggMessages_length_le st, finalize_final_text st⟩

/-! ## Claim C10 -/

theorem gatedContrib_empty (fs : List Frame) (h : ∀ fr ∈ fs, noTextFrame fr) :
    ∀ ce, gatedContrib ce fs = "" := by
  induction fs with
  | nil => intro ce; rfl
  | cons fr fs ih =>
    intro ce
    have hfr := h fr (List.mem_cons_self fr fs)
    have hrest : ∀ fr2 ∈ fs, noTextFrame fr2 :=
      fun fr2 hm => h fr2 (List.mem_cons_of_mem fr hm)
    cases fr with
    | statusF m => rw [gatedContrib_statusF]; exact ih hrest _
    | thinkRawF i f => rw [gatedContrib_thinkRawF]; exact ih hrest _
    | thinkDoneF i t => rw [gatedContrib_thinkDoneF]; exact ih hrest _
    | textDeltaF s => exact absurd hfr (by simp [noTextFrame])
    | textDoneF s => rw [gatedContrib_textDoneF]; exact ih hrest _
    | toolResultF tid c => rw [gatedContrib_toolResultF]; exact ih hrest _
    | legacyF items =>
      rw [gatedContrib_legacyF, ih hrest ce]
      have hlt : legacyText items = "" := hfr
      by_cases hce : ce ∈ handledEvents
      · rw [if_pos hce]; rfl
      · rw [if_neg hce, hlt]; rfl
    | badF => rw [gatedContrib_badF]; exact ih hrest _

/-- C10: a stream with no `response.text.delta` frames and no legacy
`message.delta` text content yields the empty summary text, even when
thinking content accumulated: the thinking pseudo-messages are
assistant-role but carry only `thinking`-typed content, which text
extraction ignores, and an empty message list yields `""` rather than
failing. -/
theorem no_text_empty_summary (fs : List Frame) (h : ∀ fr ∈ fs, noTextFrame fr) :
    (extract_summary (parse_sse_response (framesLines fs))).text = "" ∧
      (parse_sse_response (framesLines fs)).final_text = "" := by
  have hft : (parse_sse_response (framesLines fs)).final_text = "" := by
    unfold parse_sse_response
    rw [finalize_final_text, runLines_accText, gatedContrib_empty fs h]
    exact str_append_empty _
  exact ⟨hft, hft⟩

/-- Witness for C10: a stream that accumulates thinking content and a status
message but no final-answer text. -/
theorem no_text_empty_summary_witness :
    (extract_summary (parse_sse_response (framesLines
        [.thinkDoneF 0 "<thinking>hi</thinking>", .statusF "planning"]))).text = "" ∧
      (parse_sse_response (framesLines
        [.thinkDoneF 0 "<thinking>hi</thinking>", .statusF "planning"])).messages ≠ [] :=
  ⟨(no_text_empty_summary
      [.thinkDoneF 0 "<thinking>hi</thinking>", .statusF "planning"] (by decide)).1,
   by decide⟩

/-! ## Claim C8 (corrected) -/

/-- C8 counterexample: the claim as stated predicts that `sql_queries` lists
every extracted SQL string.  A tool result whose first `sql`-bearing blob
carries the empty string is extracted as `some ""`, but the Python
truthiness test `if sql:` drops it from `sql_queries`. -/
theorem sql_queries_claim_cex :
    (extract_summary ⟨[⟨"assistant",
        [.tool_results ⟨"t1", [.dict (some ⟨some "", none⟩)]⟩]⟩], []⟩).sql_queries ≠
      claimSqlQueries ⟨[⟨"assistant",
        [.tool_results ⟨"t1", [.dict (some ⟨some "", none⟩)]⟩]⟩], []⟩ := by
  decide

theorem truthy_filterMap (trs : List ToolResultData) :
    (trs.filterMap fun tr =>
        match tr.sql_query with
        | some s => if s ≠ "" then some s else none
        | none => none) =
      (trs.filterMap (·.sql_query)).filter (· ≠ "") := by
  induction trs with
  | nil => rfl
  | cons tr rest ih =>
    rw [List.filterMap_cons, List.filterMap_cons]
    cases htr : tr.sql_query with
    | none => exact ih
    | some s =>
      rw [ih]
      by_cases hs : s ≠ ""
      · simp [hs, List.filter_cons]
      · simp only [ne_eq, not_not] at hs
        simp [hs, List.filter_cons]

/-- C8 (amended): each tool result contributes at most one SQL string — the
`sql` value of its first `sql`-bearing content blob — and the summary's
`sql_queries` is exactly these extracted values in encounter order with the
falsy ones (absent, and also the empty string, which the truthiness test
drops) removed; no other deduplication happens. -/
theorem sql_queries_amended (r : CortexResponse) :
    (extract_summary r).sql_queries = (claimSqlQueries r).filter (· ≠ "") := by
  show r.sql_queries = _
  unfold CortexResponse.sql_queries claimSqlQueries
  induction r.messages with
  | nil => rfl
  | cons m rest ih =>
    rw [List.flatMap_cons, List.flatMap_cons, List.filter_append, ih, truthy_filterMap]

/-! ## Claim C9 -/

/-- C9: a transport timeout produces exactly the Summary-shaped error object
`{text: "Error: Request took longer than 120 seconds", sql_queries: [],
citations: []}`, regardless of how much of the stream was consumed before the
timeout fired. -/
theorem timeout_error_summary (consumed : List SSELine) :
    retrieve_response (.timeoutAfter consumed) =
      { text := "Error: Request took longer than 120 seconds"
        sql_queries := []
        citations := [] } := rfl

/-! ## Claim C7 (corrected) -/

/-- C7 counterexample: for budgets smaller than the ellipsis the length bound
fails.  `smart_truncate("abcd", 0)` takes the hard-cut branch, where the
Python slice `text[:0-3]` wraps around to `text[:len-3]`, producing
`"a..."` of length 4 > 0. -/
theorem smart_truncate_law_cex :
    ¬ ((smart_truncate "abcd" 0 "...").length ≤ 0) := by decide

/-- Every truncating branch of `smart_truncate` returns `t ++ "..."` for some
`t` that respects the budget whenever the budget accommodates the suffix. -/
theorem smart_truncate_else (s : String) (b : Nat) (hlen : ¬ s.length ≤ b) :
    ∃ t, smart_truncate s b "..." = t ++ "..." ∧ (3 ≤ b → t.length + 3 ≤ b) := by
  have hsuf : ("..." : String).length = 3 := rfl
  simp only [smart_truncate, if_neg hlen]
  split
  case _ r heq =>
    split at heq
    case _ hgt =>
      split at heq
      case _ hne =>
        refine ⟨pyStrip (truncAccum ". " b ("..." : String).length (pySplitOn s ". ") ""),
          (Option.some.injEq _ _).mp heq.symm, fun _ => ?_⟩
        rcases truncAccum_bound ". " b ("..." : String).length (pySplitOn s ". ") "" with h | h
        · rw [h] at hne
          exact absurd pyStrip_empty hne
        · have h2 : (truncAccum ". " b ("..." : String).length (pySplitOn s ". ") "").length
              + 3 ≤ b := h
          have h1 := pyStrip_length_le (truncAccum ". " b ("..." : String).length (pySplitOn s ". ") "")
          omega
      case _ => exact absurd heq (by simp)
    case _ => exact absurd heq (by simp)
  case _ heq =>
    split
    case _ hne =>
      refine ⟨pyStrip (truncAccum " " b ("..." : String).length (pySplitWs s) ""),
        rfl, fun _ => ?_⟩
      rcases truncAccum_bound " " b ("..." : String).length (pySplitWs s) "" with h | h
      · rw [h] at hne
        exact absurd pyStrip_empty hne
      · have h2 : (truncAccum " " b ("..." : String).length (pySplitWs s) "").length
            + 3 ≤ b := h
        have h1 := pyStrip_length_le (truncAccum " " b ("..." : String).length (pySplitWs s) "")
        omega
    case _ =>
      refine ⟨pySliceTo s ((b : Int) - (("..." : String).length : Int)), rfl, fun hb => ?_⟩
      have hm : (0 : Int) ≤ (b : Int) - (("..." : String).length : Int) := by
        rw [hsuf]
        omega
      have := pySliceTo_length_le s ((b : Int) - (("..." : String).length : Int)) hm
      have htn : ((b : Int) - (("..." : String).length : Int)).toNat = b - 3 := by
        rw [hsuf]
        omega
      rw [htn] at this
      omega

/-- C7 (amended): for every string and budget, `smart_truncate` returns the
string unchanged when it fits, always appends the `"..."` suffix when it
truncates, and respects the length budget whenever the budget is at least
the suffix length 3 (for budgets below 3 the hard-cut slice wraps around and
the bound can fail, as the counterexample shows). -/
theorem smart_truncate_law (s : String) (b : Nat) :
    (3 ≤ b → (smart_truncate s b "...").length ≤ b) ∧
      (s.length ≤ b → smart_truncate s b "..." = s) ∧
      (smart_truncate s b "..." ≠ s → ∃ t, smart_truncate s b "..." = t ++ "...") := by
  by_cases hlen : s.length ≤ b
  · have he : smart_truncate s b "..." = s := by
      unfold smart_truncate
      rw [if_pos hlen]
    exact ⟨fun _ => by rw [he]; exact hlen, fun _ => he, fun hne => absurd he hne⟩
  · obtain ⟨t, ht, hbnd⟩ := smart_truncate_else s b hlen
    refine ⟨fun hb => ?_, fun hsb => absurd hsb hlen, fun _ => ⟨t, ht⟩⟩
    rw [ht, str_length_append]
    have h3 : ("..." : String).length = 3 := rfl
    rw [h3]
    exact hbnd hb

/-- Witness for C7 (amended): each hypothesis discharged at a concrete
input — a sentence-boundary truncation within budget, an unchanged short
string, and a truncated string ending in the ellipsis. -/
theorem smart_truncate_law_witness :
    (smart_truncate "Hello world. Second sentence here. Third one." 30 "...").length ≤ 30 ∧
      smart_truncate "ab" 5 "..." = "ab" ∧
      (∃ t, smart_truncate "Hello world. Second sentence here. Third one." 30 "..."
        = t ++ "...") := by
  refine ⟨?_, ?_, ?_⟩
  · exact (smart_truncate_law "Hello world. Second sentence here. Third one." 30).1
      (by decide)
  · exact (smart_truncate_law "ab" 5).2.1 (by decide)
  · exact (smart_truncate_law "Hello world. Second sentence here. Third one." 30).2.2
      (by decide)

end SnowCortex
